import Mathlib

/-!
Verification of the pk2 `BlockManager` (src/archive/block_manager.rs):
the archive index construction (worklist traversal over directory chains)
and the three path resolvers.  Pure shallow embedding: machine `u64`
offsets become `Nat` (no arithmetic is performed on them), Rust `Result`
becomes an explicit result type, and the two panic sites
(`Option::unwrap` on OsStr-to-str conversion, `HashMap` indexing via
`chains[&idx]`) become explicit `panicked` outcomes.
-/

/-- Error taxonomy of the spec (§7).  `ioFailure` models a seek/read
`io::Error`, `formatError` a block-parse failure, `notFound` the
`err_not_found` value (kind `NotFound`, carrying the searched name),
`notADirectory` the "Expected a directory, found a file" error (a kind
other than `NotFound`), `boundaryDenied` the `PermissionDenied` error
built at block_manager.rs:113. -/
inductive PkError where
  | ioFailure
  | formatError
  | notFound (name : String)
  | notADirectory (name : String)
  | boundaryDenied
deriving DecidableEq, Repr

/-- The two panic sites of the resolvers: `unwrapNone` models
`Option::unwrap` on a `None` (non-UTF-8 component name), `keyNotFound`
models `HashMap` `Index` on a missing key (`self.chains[&idx]`). -/
inductive PanicKind where
  | unwrapNone
  | keyNotFound
deriving DecidableEq, Repr

/-- Outcome of a resolver call: `Ok`, `Err`, or a Rust panic. -/
inductive RRes (α : Type) where
  | ok (a : α)
  | err (e : PkError)
  | panicked (p : PanicKind)
deriving DecidableEq, Repr

/-- Outcome of a construction-phase loop: `Ok`, `Err`, or divergence
(the Rust loop running forever; surfaced here by fuel exhaustion). -/
inductive BuildRes (α : Type) where
  | ok (a : α)
  | err (e : PkError)
  | diverge
deriving DecidableEq, Repr

/-- A `std::path::Component` of the relative paths the resolvers take
(spec §4.2: components are ".", "..", or an ordinary name).  A
`normal none` models a `Normal` component whose `OsStr` is not valid
UTF-8, so that `as_os_str().to_str()` returns `None`. -/
inductive Component where
  | curDir
  | parentDir
  | normal (name : Option String)
deriving DecidableEq, Repr

/-- `component.as_os_str().to_str()`: "." for `CurDir`, ".." for
`ParentDir`, and the (possibly absent) UTF-8 view of a normal name. -/
def Component.asStr : Component → Option String
  | .curDir => some "."
  | .parentDir => some ".."
  | .normal n => n

/-- Modelled from the spec: the `PackEntry` shape (§6) — an unused slot,
a Directory entry carrying a name and the chain identifier of its
children (`pos_children`), or a File entry carrying a name. -/
inductive PackEntry where
  | empty
  | directory (name : String) (posChildren : Nat)
  | file (name : String)
deriving DecidableEq, Repr

/-- Modelled from the spec: `PackEntry::name`, absent only for unused
slots (§6). -/
def PackEntry.name : PackEntry → Option String
  | .empty => none
  | .directory n _ => some n
  | .file n => some n

/-- Modelled from the spec: a `PackBlock` as exposed by the block
decoder (§3/§6) — an ordered entry list plus the reserved control slot
holding the optional next-block offset (`block[19].next_chain()` in the
source). -/
structure PackBlock where
  entries : List PackEntry
  nextChain : Option Nat
deriving DecidableEq, Repr

/-- A `PackBlockChain`: the ordered blocks of one directory. -/
structure PackBlockChain where
  blocks : List PackBlock
deriving DecidableEq, Repr

/-- Modelled from the spec: `PackBlockChain::iter`, the complete entry
list of the directory across all its blocks (§3 "conceptually the
complete, possibly multi-block, entry list of one directory"). -/
def PackBlockChain.entriesAll (c : PackBlockChain) : List PackEntry :=
  (c.blocks.map PackBlock.entries).flatten

/-- Modelled from the spec: `PackBlockChain::find_block_chain_index_in`
(§4.2 lookup rule) — look the name up among the chain's entries; if
found and it is a Directory, return its child chain identifier; if not
found, fail with `NotFound(name)`; if found but not a Directory, fail
with `NotADirectory(name)`. -/
def PackBlockChain.find_block_chain_index_in (c : PackBlockChain) (dir : String) :
    Except PkError Nat :=
  match c.entriesAll.find? (fun e => e.name = some dir) with
  | none => .error (.notFound dir)
  | some (.directory _ pos) => .ok pos
  | some _ => .error (.notADirectory dir)

/-- The chain index: `HashMap<u64, PackBlockChain>` as an association
list where the most recent insertion shadows older ones. -/
abbrev ChainMap := List (Nat × PackBlockChain)

/-- `HashMap` lookup. -/
def cmFind (m : ChainMap) (k : Nat) : Option PackBlockChain :=
  (m.find? (fun p => p.1 = k)).map (fun p => p.2)

/-- `HashMap::insert` (overwrites any previous binding of the key). -/
def cmInsert (m : ChainMap) (k : Nat) (v : PackBlockChain) : ChainMap :=
  (k, v) :: m

/-- `pub struct BlockManager { pub chains: HashMap<u64, PackBlockChain> }` -/
structure BlockManager where
  chains : ChainMap
deriving DecidableEq, Repr

/-- Modelled from the spec: `PK2_ROOT_BLOCK`, the fixed well-known file
offset of the root directory's chain (§3). -/
def PK2_ROOT_BLOCK : Nat := 256

/-- Modelled from the spec: a raw fixed-size buffer of bytes read from
the byte source (the `[0; PK2_FILE_BLOCK_SIZE]` buffer). -/
abbrev ByteBuf := List Nat

/-- Modelled from the spec: the seekable byte source — `seek(SeekFrom::
Start(offset))` followed by `read_exact`, returning `none` on a
seek/read failure (an `io::Error`). -/
abbrev ByteSource := Nat → Option ByteBuf

/-- Modelled from the spec: the cipher's `decrypt_nopad`, decrypting a
buffer in place; its result status is discarded by the source
(`let _ = bf.decrypt_nopad(&mut buf)`), so it is a plain function. -/
abbrev Blowfish := ByteBuf → ByteBuf

/-- Modelled from the spec: `PackBlock::from_reader` — the block decoder
parsing one decrypted buffer (given its file offset for context) into a
`PackBlock`, returning `none` on a structural parse failure. -/
abbrev BlockDecoder := ByteBuf → Nat → Option PackBlock

/-- The loop body of `read_chain_from_file_at` (block_manager.rs:48-59),
with explicit fuel standing for the unbounded Rust `loop`.  Each round:
seek+read (ioFailure on failure), best-effort decrypt, parse
(formatError on failure), push the block, and follow the continuation
pointer if present. -/
def readChainAux (bf : Blowfish) (src : ByteSource) (dec : BlockDecoder) :
    Nat → Nat → List PackBlock → BuildRes PackBlockChain
  | 0, _, _ => .diverge
  | f + 1, offset, blocks =>
    match src offset with
    | none => .err .ioFailure
    | some buf =>
      match dec (bf buf) offset with
      | none => .err .formatError
      | some block =>
        match block.nextChain with
        | some nc => readChainAux bf src dec f nc (blocks ++ [block])
        | none => .ok ⟨blocks ++ [block]⟩

/-- `BlockManager::read_chain_from_file_at` (block_manager.rs:40-60). -/
def read_chain_from_file_at (bf : Blowfish) (src : ByteSource) (dec : BlockDecoder)
    (cf : Nat) (offset : Nat) : BuildRes PackBlockChain :=
  readChainAux bf src dec cf offset []

/-- The child offsets a freshly read chain pushes onto the worklist
(block_manager.rs:22-33), in push order: every Directory entry's
`pos_children`, excluding entries named "." or "..". -/
def chainChildOffsets (c : PackBlockChain) : List Nat :=
  c.entriesAll.filterMap (fun e =>
    match e with
    | .directory name pos => if name ≠ "." ∧ name ≠ ".." then some pos else none
    | _ => none)

/-- The worklist loop of `BlockManager::new` (block_manager.rs:20-35),
with explicit fuel for the unbounded `while let`.  The worklist is the
Rust `Vec` with its top at the list head (`pop` removes the head; the
children are pushed in entry order, so they end up reversed on top). -/
def newAux (bf : Blowfish) (src : ByteSource) (dec : BlockDecoder) (cf : Nat) :
    Nat → List Nat → ChainMap → BuildRes ChainMap
  | _, [], chains => .ok chains
  | 0, _ :: _, _ => .diverge
  | fuel + 1, offset :: rest, chains =>
    match read_chain_from_file_at bf src dec cf offset with
    | .err e => .err e
    | .diverge => .diverge
    | .ok chain =>
      newAux bf src dec cf fuel ((chainChildOffsets chain).reverse ++ rest)
        (cmInsert chains offset chain)

/-- `BlockManager::new` (block_manager.rs:16-37): seed the worklist with
the root offset and run the traversal. -/
def BlockManager.new (bf : Blowfish) (src : ByteSource) (dec : BlockDecoder)
    (cf fuel : Nat) : BuildRes BlockManager :=
  match newAux bf src dec cf fuel [PK2_ROOT_BLOCK] [] with
  | .ok chains => .ok ⟨chains⟩
  | .err e => .err e
  | .diverge => .diverge

/-- `BlockManager::resolve_path_to_block_chain_index_at`
(block_manager.rs:85-93): `try_fold` over the components.  Per step the
receiver `self.chains[&idx]` is evaluated first (panics on a missing
key), then the argument `component.as_os_str().to_str().unwrap()`
(panics on a non-UTF-8 component), then the lookup. -/
def BlockManager.resolve_path_to_block_chain_index_at (bm : BlockManager) :
    Nat → List Component → RRes Nat
  | idx, [] => .ok idx
  | idx, c :: rest =>
    match cmFind bm.chains idx with
    | none => .panicked .keyNotFound
    | some chain =>
      match c.asStr with
      | none => .panicked .unwrapNone
      | some name =>
        match chain.find_block_chain_index_in name with
        | .ok i => bm.resolve_path_to_block_chain_index_at i rest
        | .error e => .err e

/-- `BlockManager::resolve_path_to_entry_and_parent`
(block_manager.rs:64-82): empty path returns `Ok(None)`; otherwise the
last component is split off, the remaining path is resolved to the
parent chain index, the parent is fetched from the map (panics on a
missing key), and its entries are scanned for `entry.name() == name`;
on a miss the error message unwraps the leaf name (panics when the leaf
is not UTF-8). -/
def BlockManager.resolve_path_to_entry_and_parent (bm : BlockManager)
    (current_chain : Nat) (path : List Component) :
    RRes (Option (PackBlockChain × PackEntry)) :=
  match path.getLast? with
  | none => .ok none
  | some c =>
    match bm.resolve_path_to_block_chain_index_at current_chain path.dropLast with
    | .err e => .err e
    | .panicked p => .panicked p
    | .ok idx =>
      match cmFind bm.chains idx with
      | none => .panicked .keyNotFound
      | some parent =>
        match parent.entriesAll.find? (fun e => e.name = c.asStr) with
        | some entry => .ok (some (parent, entry))
        | none =>
          match c.asStr with
          | some nm => .err (.notFound nm)
          | none => .panicked .unwrapNone

/-- The `for component in components` loop of `validate_dir_path_until`
(block_manager.rs:104-127), returning the final `(chain, n)` on normal
exit or `break`.  Per iteration the name is unwrapped first (line 105,
panics on a non-UTF-8 component), then `self.chains[&chain]` is indexed
(line 106, panics on a missing key); a `NotFound` lookup error breaks
the loop unless the component is `ParentDir` (then `PermissionDenied`,
the spec's BoundaryDenied); any other lookup error is returned as is. -/
def validateLoop (bm : BlockManager) : Nat → Nat → List Component → RRes (Nat × Nat)
  | chain, n, [] => .ok (chain, n)
  | chain, n, c :: rest =>
    match c.asStr with
    | none => .panicked .unwrapNone
    | some name =>
      match cmFind bm.chains chain with
      | none => .panicked .keyNotFound
      | some ch =>
        match ch.find_block_chain_index_in name with
        | .ok i => validateLoop bm i (n + 1) rest
        | .error (.notFound _) =>
          if c = Component.parentDir then .err .boundaryDenied
          else .ok (chain, n)
        | .error e => .err e

/-- `components.by_ref().take(n).next()` (block_manager.rs:130):
`Take::next` advances the underlying `Components` iterator by exactly
one element when `n != 0` and by none otherwise, so only
`min n 1` components are consumed before `as_path()` is taken. -/
def takeNNextRest (n : Nat) (path : List Component) : List Component :=
  if n = 0 then path else path.drop 1

/-- `BlockManager::validate_dir_path_until` (block_manager.rs:97-132). -/
def BlockManager.validate_dir_path_until (bm : BlockManager) (chain : Nat)
    (path : List Component) : RRes (Nat × List Component) :=
  match validateLoop bm chain 0 path with
  | .ok (c, n) => .ok (c, takeNNextRest n path)
  | .err e => .err e
  | .panicked p => .panicked p

/-- Every component of the path converts to a UTF-8 string. -/
def UTF8Path (path : List Component) : Prop :=
  ∀ c ∈ path, (Component.asStr c).isSome

instance : DecidablePred UTF8Path := fun path =>
  List.decidableBAll (fun c => (Component.asStr c).isSome) path

/-- One entry respects the child-identifier closure: if it is a
Directory entry, its child identifier is a key of the map. -/
def entryChildOk (m : ChainMap) (e : PackEntry) : Bool :=
  match e with
  | .directory _ pos => (cmFind m pos).isSome
  | _ => true

/-- The child-identifier closure invariant: every Directory entry (of
any name, "." and ".." included) of every chain stored in the index has
its child identifier present as a key of the index. -/
def ChildClosed (bm : BlockManager) : Prop :=
  ∀ pr ∈ bm.chains, ∀ e ∈ PackBlockChain.entriesAll pr.2, entryChildOk bm.chains e

instance : DecidablePred ChildClosed := fun bm => by
  unfold ChildClosed
  infer_instance

/-- The offsets reachable from the root through the chains the source
actually yields, stepping only through non-"."/".." Directory entries
(the edges construction follows). -/
inductive ReachableOffset (bf : Blowfish) (src : ByteSource) (dec : BlockDecoder)
    (cf : Nat) : Nat → Prop
  | root : ReachableOffset bf src dec cf PK2_ROOT_BLOCK
  | step {o ch c} : ReachableOffset bf src dec cf o →
      read_chain_from_file_at bf src dec cf o = .ok ch →
      c ∈ chainChildOffsets ch → ReachableOffset bf src dec cf c

/-- Concrete fixture: the root directory's single block — ".", "..",
subdirectory "a" at offset 512, a file, and an unused slot. -/
def rootBlockW : PackBlock :=
  ⟨[.directory "." 256, .directory ".." 256, .directory "a" 512, .file "f.txt", .empty], none⟩

/-- Concrete fixture: directory "a" at 512 with subdirectory "b" at 768. -/
def aBlockW : PackBlock :=
  ⟨[.directory "." 512, .directory ".." 256, .directory "b" 768], none⟩

/-- Concrete fixture: directory "b" at 768 holding only a file. -/
def bBlockW : PackBlock :=
  ⟨[.directory "." 768, .directory ".." 512, .file "c.txt"], none⟩

/-- Concrete fixture: the index for root → "a" → "b". -/
def bmW : BlockManager :=
  ⟨[(256, ⟨[rootBlockW]⟩), (512, ⟨[aBlockW]⟩), (768, ⟨[bBlockW]⟩)]⟩

/-- Concrete fixture: an index whose root chain has no ".." entry, so an
unresolved ".." component can be exercised. -/
def bmNoUpW : BlockManager :=
  ⟨[(256, ⟨[⟨[.directory "." 256, .directory "a" 512], none⟩]⟩), (512, ⟨[aBlockW]⟩),
    (768, ⟨[bBlockW]⟩)]⟩

/-- Concrete fixture: identity cipher for the construction witnesses. -/
def bfW : Blowfish := fun b => b

/-- Concrete fixture: a byte source whose buffer at offset `o` is `[o]`. -/
def srcW : ByteSource := fun o => some [o]

/-- Concrete fixture: a decoder recognising the three fixture buffers. -/
def decW : BlockDecoder := fun buf _ =>
  if buf = [256] then some rootBlockW
  else if buf = [512] then some aBlockW
  else if buf = [768] then some bBlockW
  else none

/-- Concrete fixture: a byte source that always fails to read. -/
def srcBadW : ByteSource := fun _ => none

/-- Concrete fixture: rank function witnessing acyclicity of the fixture
archive's non-"."/".." directory graph. -/
def rankW (o : Nat) : Nat :=
  if o = 256 then 2 else if o = 512 then 1 else 0

theorem cmFind_mem {m : ChainMap} {k : Nat} {ch : PackBlockChain}
    (h : cmFind m k = some ch) : (k, ch) ∈ m := by
  unfold cmFind at h
  cases hf : m.find? (fun p => p.1 = k) with
  | none => simp [hf] at h
  | some pr =>
    have hm := List.mem_of_find?_eq_some hf
    have hk := List.find?_some hf
    simp [hf] at h
    simp at hk
    cases pr with
    | mk a b =>
      simp at hk h
      subst hk
      subst h
      exact hm

theorem fbci_ok_mem {c : PackBlockChain} {nm : String} {pos : Nat}
    (h : c.find_block_chain_index_in nm = .ok pos) :
    ∃ nm2, PackEntry.directory nm2 pos ∈ c.entriesAll := by
  unfold PackBlockChain.find_block_chain_index_in at h
  cases hf : c.entriesAll.find? (fun e => e.name = some nm) with
  | none => simp [hf] at h
  | some e =>
    have hm := List.mem_of_find?_eq_some hf
    cases e with
    | empty => simp [hf] at h
    | directory n p =>
      simp [hf] at h
      subst h
      exact ⟨n, hm⟩
    | file n => simp [hf] at h

theorem resolveAt_cons (bm : BlockManager) (idx : Nat) (c : Component) (rest : List Component) :
    bm.resolve_path_to_block_chain_index_at idx (c :: rest) =
      (match cmFind bm.chains idx with
       | none => .panicked .keyNotFound
       | some chain =>
         match c.asStr with
         | none => .panicked .unwrapNone
         | some name =>
           match chain.find_block_chain_index_in name with
           | .ok i => bm.resolve_path_to_block_chain_index_at i rest
           | .error e => .err e) := rfl

theorem resolveAt_append {bm : BlockManager} {pre : List Component} {idx c' : Nat}
    (h : bm.resolve_path_to_block_chain_index_at idx pre = .ok c') (rest : List Component) :
    bm.resolve_path_to_block_chain_index_at idx (pre ++ rest) =
      bm.resolve_path_to_block_chain_index_at c' rest := by
  induction pre generalizing idx with
  | nil =>
    unfold BlockManager.resolve_path_to_block_chain_index_at at h
    cases h
    rfl
  | cons c pre ih =>
    rw [resolveAt_cons] at h
    rw [List.cons_append, resolveAt_cons]
    cases hf : cmFind bm.chains idx with
    | none => simp [hf] at h
    | some chain =>
      simp only [hf] at h ⊢
      cases hs : c.asStr with
      | none => simp [hs] at h
      | some name =>
        simp only [hs] at h ⊢
        cases hl : chain.find_block_chain_index_in name with
        | error e => simp [hl] at h
        | ok i =>
          simp only [hl] at h ⊢
          exact ih h

theorem validateLoop_cons (bm : BlockManager) (chain n : Nat) (c : Component)
    (rest : List Component) :
    validateLoop bm chain n (c :: rest) =
      (match c.asStr with
       | none => .panicked .unwrapNone
       | some name =>
         match cmFind bm.chains chain with
         | none => .panicked .keyNotFound
         | some ch =>
           match ch.find_block_chain_index_in name with
           | .ok i => validateLoop bm i (n + 1) rest
           | .error (.notFound _) =>
             if c = Component.parentDir then .err .boundaryDenied
             else .ok (chain, n)
           | .error e => .err e) := rfl

theorem validateLoop_append {bm : BlockManager} {pre : List Component} {idx c' : Nat}
    (h : bm.resolve_path_to_block_chain_index_at idx pre = .ok c')
    (n : Nat) (rest : List Component) :
    validateLoop bm idx n (pre ++ rest) = validateLoop bm c' (n + pre.length) rest := by
  induction pre generalizing idx n with
  | nil =>
    unfold BlockManager.resolve_path_to_block_chain_index_at at h
    cases h
    rfl
  | cons c pre ih =>
    rw [resolveAt_cons] at h
    rw [List.cons_append, validateLoop_cons]
    cases hf : cmFind bm.chains idx with
    | none => simp [hf] at h
    | some chain =>
      simp only [hf] at h ⊢
      cases hs : c.asStr with
      | none => simp [hs] at h
      | some name =>
        simp only [hs] at h ⊢
        cases hl : chain.find_block_chain_index_in name with
        | error e => simp [hl] at h
        | ok i =>
          simp only [hl] at h ⊢
          rw [ih h (n + 1)]
          simp only [List.length_cons]
          ring_nf

theorem resolveAt_ok_key {bm : BlockManager} {path : List Component} {idx c' : Nat}
    (hc : ChildClosed bm) (hk : (cmFind bm.chains idx).isSome)
    (h : bm.resolve_path_to_block_chain_index_at idx path = .ok c') :
    (cmFind bm.chains c').isSome := by
  induction path generalizing idx with
  | nil =>
    unfold BlockManager.resolve_path_to_block_chain_index_at at h
    cases h
    exact hk
  | cons c rest ih =>
    rw [resolveAt_cons] at h
    cases hf : cmFind bm.chains idx with
    | none => simp [hf] at h
    | some chain =>
      simp only [hf] at h
      cases hs : c.asStr with
      | none => simp [hs] at h
      | some name =>
        simp only [hs] at h
        cases hl : chain.find_block_chain_index_in name with
        | error e => simp [hl] at h
        | ok i =>
          simp only [hl] at h
          have hmem := cmFind_mem hf
          obtain ⟨nm2, hdm⟩ := fbci_ok_mem hl
          have := hc (idx, chain) hmem (PackEntry.directory nm2 i) hdm
          simp [entryChildOk] at this
          exact ih this h

theorem resolveAt_no_unwrap {bm : BlockManager} {path : List Component} {idx : Nat}
    (hu : UTF8Path path) :
    bm.resolve_path_to_block_chain_index_at idx path ≠ .panicked .unwrapNone := by
  induction path generalizing idx with
  | nil =>
    unfold BlockManager.resolve_path_to_block_chain_index_at
    simp
  | cons c rest ih =>
    rw [resolveAt_cons]
    cases hf : cmFind bm.chains idx with
    | none => simp
    | some chain =>
      simp only
      cases hs : c.asStr with
      | none =>
        have := hu c (List.mem_cons_self c rest)
        simp [hs] at this
      | some name =>
        simp only
        cases hl : chain.find_block_chain_index_in name with
        | error e => simp
        | ok i =>
          simp only
          exact ih (fun x hx => hu x (List.mem_cons_of_mem c hx))

theorem resolveAt_no_key {bm : BlockManager} {path : List Component} {idx : Nat}
    (hc : ChildClosed bm) (hk : (cmFind bm.chains idx).isSome) :
    bm.resolve_path_to_block_chain_index_at idx path ≠ .panicked .keyNotFound := by
  induction path generalizing idx with
  | nil =>
    unfold BlockManager.resolve_path_to_block_chain_index_at
    simp
  | cons c rest ih =>
    rw [resolveAt_cons]
    cases hf : cmFind bm.chains idx with
    | none => simp [hf] at hk
    | some chain =>
      simp only
      cases hs : c.asStr with
      | none => simp
      | some name =>
        simp only
        cases hl : chain.find_block_chain_index_in name with
        | error e => simp
        | ok i =>
          simp only
          have hmem := cmFind_mem hf
          obtain ⟨nm2, hdm⟩ := fbci_ok_mem hl
          have := hc (idx, chain) hmem (PackEntry.directory nm2 i) hdm
          simp [entryChildOk] at this
          exact ih this

theorem validateLoop_no_unwrap {bm : BlockManager} {path : List Component} {idx n : Nat}
    (hu : UTF8Path path) :
    validateLoop bm idx n path ≠ .panicked .unwrapNone := by
  induction path generalizing idx n with
  | nil =>
    unfold validateLoop
    simp
  | cons c rest ih =>
    rw [validateLoop_cons]
    cases hs : c.asStr with
    | none =>
      have := hu c (List.mem_cons_self c rest)
      simp [hs] at this
    | some name =>
      simp only
      cases hf : cmFind bm.chains idx with
      | none => simp
      | some chain =>
        simp only
        cases hl : chain.find_block_chain_index_in name with
        | ok i =>
          simp only
          exact ih (fun x hx => hu x (List.mem_cons_of_mem c hx))
        | error e =>
          cases e <;> simp only <;> (try split) <;> simp

theorem validateLoop_no_key {bm : BlockManager} {path : List Component} {idx n : Nat}
    (hc : ChildClosed bm) (hk : (cmFind bm.chains idx).isSome) :
    validateLoop bm idx n path ≠ .panicked .keyNotFound := by
  induction path generalizing idx n with
  | nil =>
    unfold validateLoop
    simp
  | cons c rest ih =>
    rw [validateLoop_cons]
    cases hs : c.asStr with
    | none => simp
    | some name =>
      simp only
      cases hf : cmFind bm.chains idx with
      | none => simp [hf] at hk
      | some chain =>
        simp only
        cases hl : chain.find_block_chain_index_in name with
        | ok i =>
          simp only
          have hmem := cmFind_mem hf
          obtain ⟨nm2, hdm⟩ := fbci_ok_mem hl
          have := hc (idx, chain) hmem (PackEntry.directory nm2 i) hdm
          simp [entryChildOk] at this
          exact ih this
        | error e =>
          cases e <;> simp only <;> (try split) <;> simp

theorem rpep_eq (bm : BlockManager) (start : Nat) (path : List Component) :
    bm.resolve_path_to_entry_and_parent start path =
      (match path.getLast? with
       | none => .ok none
       | some c =>
         match bm.resolve_path_to_block_chain_index_at start path.dropLast with
         | .err e => .err e
         | .panicked p => .panicked p
         | .ok idx =>
           match cmFind bm.chains idx with
           | none => .panicked .keyNotFound
           | some parent =>
             match parent.entriesAll.find? (fun e => e.name = c.asStr) with
             | some entry => .ok (some (parent, entry))
             | none =>
               match c.asStr with
               | some nm => .err (.notFound nm)
               | none => .panicked .unwrapNone) := rfl

theorem rpep_no_unwrap {bm : BlockManager} {path : List Component} {start : Nat}
    (hu : UTF8Path path) :
    bm.resolve_path_to_entry_and_parent start path ≠ .panicked .unwrapNone := by
  rw [rpep_eq]
  cases hg : path.getLast? with
  | none => simp
  | some c =>
    simp only
    cases hr : bm.resolve_path_to_block_chain_index_at start path.dropLast with
    | err e => simp
    | panicked p =>
      cases p with
      | unwrapNone =>
        exact absurd hr (resolveAt_no_unwrap
          (fun x hx => hu x (List.mem_of_mem_dropLast hx)))
      | keyNotFound => simp
    | ok idx =>
      simp only
      cases hf : cmFind bm.chains idx with
      | none => simp
      | some parent =>
        simp only
        cases he : parent.entriesAll.find? (fun e => e.name = c.asStr) with
        | some entry => simp
        | none =>
          simp only
          cases hs : c.asStr with
          | some nm => simp
          | none =>
            have hcm : c ∈ path := by
              have := List.dropLast_append_getLast? c (by rw [hg]; rfl)
              rw [← this]
              simp
            have := hu c hcm
            simp [hs] at this

theorem rpep_no_key {bm : BlockManager} {path : List Component} {start : Nat}
    (hc : ChildClosed bm) (hk : (cmFind bm.chains start).isSome) :
    bm.resolve_path_to_entry_and_parent start path ≠ .panicked .keyNotFound := by
  rw [rpep_eq]
  cases hg : path.getLast? with
  | none => simp
  | some c =>
    simp only
    cases hr : bm.resolve_path_to_block_chain_index_at start path.dropLast with
    | err e => simp
    | panicked p =>
      cases p with
      | unwrapNone => simp
      | keyNotFound => exact absurd hr (resolveAt_no_key hc hk)
    | ok idx =>
      simp only
      cases hf : cmFind bm.chains idx with
      | none =>
        have := resolveAt_ok_key hc hk hr
        simp [hf] at this
      | some parent =>
        simp only
        cases he : parent.entriesAll.find? (fun e => e.name = c.asStr) with
        | some entry => simp
        | none =>
          simp only
          cases hs : c.asStr <;> simp

theorem validate_eq_loop (bm : BlockManager) (chain : Nat) (path : List Component) :
    bm.validate_dir_path_until chain path =
      (match validateLoop bm chain 0 path with
       | .ok (c, n) => .ok (c, takeNNextRest n path)
       | .err e => .err e
       | .panicked p => .panicked p) := rfl

theorem validate_ne_panicked {bm : BlockManager} {chain : Nat} {path : List Component}
    {p : PanicKind} (h : validateLoop bm chain 0 path ≠ .panicked p) :
    bm.validate_dir_path_until chain path ≠ .panicked p := by
  rw [validate_eq_loop]
  cases hv : validateLoop bm chain 0 path with
  | ok a => cases a; simp
  | err e => simp
  | panicked q =>
    simp only
    intro hq
    cases hq
    exact h hv

/-- Claim C1: for `start = root` and path "a/b/x", where "a" and "a/b" both
resolve (to 512 and 768) and "x" is absent from "b", the code returns
the last resolved chain 768 but a remainder "b/x" that still contains
the resolved component "b" — the `take(n).next()` at
block_manager.rs:130 only consumes one component, contradicting the
claim (and the function's own doc comment) that the remainder is
exactly the unresolved suffix "x". -/
theorem c1_validate_keeps_resolved_component_in_remainder :
    bmW.resolve_path_to_block_chain_index_at 256
        [Component.normal (some "a"), Component.normal (some "b")] = .ok 768 ∧
    bmW.validate_dir_path_until 256
        [Component.normal (some "a"), Component.normal (some "b"), Component.normal (some "x")] =
      .ok (768, [Component.normal (some "b"), Component.normal (some "x")]) := by
  decide

/-- Claim C2: whenever the components before some ".." all resolve and the
chain reached has no entry named ".." (so the lookup fails with
NotFound), `validate_dir_path_until` returns the PermissionDenied
("BoundaryDenied") error instead of a (chain, remainder) pair. -/
theorem c2_unresolved_parent_dir_is_boundary_denied
    {bm : BlockManager} {chain c' : Nat} {pre rest : List Component} {ch : PackBlockChain}
    (hpre : bm.resolve_path_to_block_chain_index_at chain pre = .ok c')
    (hch : cmFind bm.chains c' = some ch)
    (hnf : ch.entriesAll.find? (fun e => e.name = some "..") = none) :
    bm.validate_dir_path_until chain (pre ++ Component.parentDir :: rest) =
      .err .boundaryDenied := by
  have hfb : ch.find_block_chain_index_in ".." = .error (.notFound "..") := by
    unfold PackBlockChain.find_block_chain_index_in
    rw [hnf]
  rw [validate_eq_loop, validateLoop_append hpre 0 _, validateLoop_cons]
  simp only [Component.asStr, hch, hfb]
  simp

/-- Witness for claim C2: from the fixture index whose root chain lacks a ".."
entry, validating "../x" fails with BoundaryDenied. -/
theorem c2_witness :
    bmNoUpW.validate_dir_path_until 256 [Component.parentDir, Component.normal (some "x")] =
      .err .boundaryDenied :=
  @c2_unresolved_parent_dir_is_boundary_denied bmNoUpW 256 256 []
    [Component.normal (some "x")] ⟨[⟨[.directory "." 256, .directory "a" 512], none⟩]⟩
    (by decide) (by decide) (by decide)

/-- Claim C3: when the components before `c` all resolve to chain `c'` and the
name of `c` matches a File entry there, both
`resolve_path_to_block_chain_index_at` and `validate_dir_path_until`
fail with `NotADirectory(name)` — an error distinct from every
`NotFound` — and `validate_dir_path_until` propagates it unchanged
rather than returning a (chain, remainder) pair. -/
theorem c3_file_component_not_a_directory_fatal
    {bm : BlockManager} {chain c' : Nat} {pre rest : List Component} {c : Component}
    {name : String} {ch : PackBlockChain}
    (hpre : bm.resolve_path_to_block_chain_index_at chain pre = .ok c')
    (hch : cmFind bm.chains c' = some ch)
    (hs : c.asStr = some name)
    (hfind : ch.entriesAll.find? (fun e => e.name = some name) = some (PackEntry.file name)) :
    bm.resolve_path_to_block_chain_index_at chain (pre ++ c :: rest) =
        .err (.notADirectory name) ∧
    bm.validate_dir_path_until chain (pre ++ c :: rest) = .err (.notADirectory name) ∧
    ∀ m, PkError.notADirectory name ≠ PkError.notFound m := by
  have hfb : ch.find_block_chain_index_in name = .error (.notADirectory name) := by
    unfold PackBlockChain.find_block_chain_index_in
    rw [hfind]
  refine ⟨?_, ?_, by simp⟩
  · rw [resolveAt_append hpre, resolveAt_cons]
    simp only [hch, hs, hfb]
  · rw [validate_eq_loop, validateLoop_append hpre 0 _, validateLoop_cons]
    simp only [hs, hch, hfb]

/-- Witness for claim C3: resolving and validating "f.txt/y" from the fixture
root, where "f.txt" is a File, fails with NotADirectory("f.txt"). -/
theorem c3_witness :
    bmW.resolve_path_to_block_chain_index_at 256
        [Component.normal (some "f.txt"), Component.normal (some "y")] =
      .err (.notADirectory "f.txt") ∧
    bmW.validate_dir_path_until 256
        [Component.normal (some "f.txt"), Component.normal (some "y")] =
      .err (.notADirectory "f.txt") ∧
    ∀ m, PkError.notADirectory "f.txt" ≠ PkError.notFound m :=
  @c3_file_component_not_a_directory_fatal bmW 256 256 []
    [Component.normal (some "y")] (Component.normal (some "f.txt")) "f.txt"
    ⟨[rootBlockW]⟩ (by decide) (by decide) (by decide) (by decide)

/-- Claim C6: `resolve_path_to_block_chain_index_at` is the left fold of the
spec — an empty path returns the start unchanged, and one step on a
component whose name is found looks the name up in the current chain's
entries: a Directory match moves to its child identifier and continues,
no match fails with NotFound(name), and a File match fails with
NotADirectory(name). -/
theorem c6_resolve_is_spec_fold (bm : BlockManager) (cur : Nat) :
    bm.resolve_path_to_block_chain_index_at cur [] = .ok cur ∧
    ∀ c rest ch name, cmFind bm.chains cur = some ch → c.asStr = some name →
      ((ch.entriesAll.find? (fun e => e.name = some name) = none →
          bm.resolve_path_to_block_chain_index_at cur (c :: rest) = .err (.notFound name)) ∧
       (∀ dname pos,
          ch.entriesAll.find? (fun e => e.name = some name) =
              some (PackEntry.directory dname pos) →
          bm.resolve_path_to_block_chain_index_at cur (c :: rest) =
            bm.resolve_path_to_block_chain_index_at pos rest) ∧
       (∀ fname,
          ch.entriesAll.find? (fun e => e.name = some name) = some (PackEntry.file fname) →
          bm.resolve_path_to_block_chain_index_at cur (c :: rest) =
            .err (.notADirectory name))) := by
  refine ⟨rfl, ?_⟩
  intro c rest ch name hch hs
  refine ⟨?_, ?_, ?_⟩
  · intro hnone
    have hfb : ch.find_block_chain_index_in name = .error (.notFound name) := by
      unfold PackBlockChain.find_block_chain_index_in
      rw [hnone]
    rw [resolveAt_cons]
    simp only [hch, hs, hfb]
  · intro dname pos hdir
    have hfb : ch.find_block_chain_index_in name = .ok pos := by
      unfold PackBlockChain.find_block_chain_index_in
      rw [hdir]
    rw [resolveAt_cons]
    simp only [hch, hs, hfb]
  · intro fname hfile
    have hfb : ch.find_block_chain_index_in name = .error (.notADirectory name) := by
      unfold PackBlockChain.find_block_chain_index_in
      rw [hfile]
    rw [resolveAt_cons]
    simp only [hch, hs, hfb]

/-- Witness for claim C6: one Directory step, one NotFound miss and the empty
path, all on the fixture index. -/
theorem c6_witness :
    bmW.resolve_path_to_block_chain_index_at 256 [] = .ok 256 ∧
    bmW.resolve_path_to_block_chain_index_at 256 [Component.normal (some "a")] =
      bmW.resolve_path_to_block_chain_index_at 512 [] ∧
    bmW.resolve_path_to_block_chain_index_at 256 [Component.normal (some "zz")] =
      .err (.notFound "zz") := by
  refine ⟨(c6_resolve_is_spec_fold bmW 256).1, ?_, ?_⟩
  · exact ((c6_resolve_is_spec_fold bmW 256).2 (Component.normal (some "a")) []
      ⟨[rootBlockW]⟩ "a" (by decide) (by decide)).2.1 "a" 512 (by decide)
  · exact ((c6_resolve_is_spec_fold bmW 256).2 (Component.normal (some "zz")) []
      ⟨[rootBlockW]⟩ "zz" (by decide) (by decide)).1 (by decide)

/-- Claim C7: `resolve_path_to_entry_and_parent` returns the non-error
`Ok(None)` outcome on an empty path for every start; on a non-empty
path whose directory portion resolves (via the chain-index resolver) to
a parent chain, a linear scan of that chain's entries for the leaf name
either returns the parent paired with the matched entry, or fails with
NotFound(leaf name) when nothing matches. -/
theorem c7_entry_and_parent_characterised (bm : BlockManager) (start : Nat) :
    bm.resolve_path_to_entry_and_parent start [] = .ok none ∧
    ∀ path c idx parent, path.getLast? = some c →
      bm.resolve_path_to_block_chain_index_at start path.dropLast = .ok idx →
      cmFind bm.chains idx = some parent →
      ((∀ entry, parent.entriesAll.find? (fun e => e.name = c.asStr) = some entry →
          bm.resolve_path_to_entry_and_parent start path = .ok (some (parent, entry))) ∧
       (∀ nm, c.asStr = some nm →
          parent.entriesAll.find? (fun e => e.name = c.asStr) = none →
          bm.resolve_path_to_entry_and_parent start path = .err (.notFound nm))) := by
  refine ⟨rfl, ?_⟩
  intro path c idx parent hg hr hf
  constructor
  · intro entry hfind
    rw [rpep_eq]
    simp only [hg, hr, hf, hfind]
  · intro nm hs hfind
    rw [hs] at hfind
    rw [rpep_eq]
    simp only [hg, hr, hf, hs, hfind]

/-- Witness for claim C7: the empty path gives `Ok(None)`; "a/b/c.txt" resolves
to the file entry inside the chain of "b"; "a/missing.txt" fails with
NotFound("missing.txt"). -/
theorem c7_witness :
    bmW.resolve_path_to_entry_and_parent 256 [] = .ok none ∧
    bmW.resolve_path_to_entry_and_parent 256
        [Component.normal (some "a"), Component.normal (some "b"),
         Component.normal (some "c.txt")] =
      .ok (some (⟨[bBlockW]⟩, PackEntry.file "c.txt")) ∧
    bmW.resolve_path_to_entry_and_parent 256
        [Component.normal (some "a"), Component.normal (some "missing.txt")] =
      .err (.notFound "missing.txt") := by
  refine ⟨(c7_entry_and_parent_characterised bmW 256).1, ?_, ?_⟩
  · exact ((c7_entry_and_parent_characterised bmW 256).2
      [Component.normal (some "a"), Component.normal (some "b"),
       Component.normal (some "c.txt")]
      (Component.normal (some "c.txt")) 768 ⟨[bBlockW]⟩
      (by decide) (by decide) (by decide)).1 (PackEntry.file "c.txt") (by decide)
  · exact ((c7_entry_and_parent_characterised bmW 256).2
      [Component.normal (some "a"), Component.normal (some "missing.txt")]
      (Component.normal (some "missing.txt")) 512 ⟨[aBlockW]⟩
      (by decide) (by decide) (by decide)).2 "missing.txt" (by decide) (by decide)

/-- Claim C9: the resolvers are panic-free in the `unwrap` sense exactly under
the all-components-UTF-8 precondition.  First conjunct: under the
precondition none of the three operations hits the `unwrap` panic.
Second: a reached non-UTF-8 component makes the chain-index resolver
(after the map lookup) and the validator (before it) panic.  Third: a
non-UTF-8 leaf that matches no entry of the parent chain makes
`resolve_path_to_entry_and_parent` panic while building the NotFound
error. -/
theorem c9_utf8_is_the_no_unwrap_panic_precondition
    (bm : BlockManager) (start : Nat) (path : List Component) :
    (UTF8Path path →
      bm.resolve_path_to_block_chain_index_at start path ≠ .panicked .unwrapNone ∧
      bm.validate_dir_path_until start path ≠ .panicked .unwrapNone ∧
      bm.resolve_path_to_entry_and_parent start path ≠ .panicked .unwrapNone) ∧
    (∀ pre c rest c' ch, path = pre ++ c :: rest → c.asStr = none →
      bm.resolve_path_to_block_chain_index_at start pre = .ok c' →
      cmFind bm.chains c' = some ch →
      bm.resolve_path_to_block_chain_index_at start path = .panicked .unwrapNone ∧
      bm.validate_dir_path_until start path = .panicked .unwrapNone) ∧
    (∀ pre c idx parent, path = pre ++ [c] → c.asStr = none →
      bm.resolve_path_to_block_chain_index_at start pre = .ok idx →
      cmFind bm.chains idx = some parent →
      parent.entriesAll.find? (fun e => e.name = none) = none →
      bm.resolve_path_to_entry_and_parent start path = .panicked .unwrapNone) := by
  refine ⟨?_, ?_, ?_⟩
  · intro hu
    exact ⟨resolveAt_no_unwrap hu, validate_ne_panicked (validateLoop_no_unwrap hu),
      rpep_no_unwrap hu⟩
  · intro pre c rest c' ch hp hs hpre hch
    subst hp
    constructor
    · rw [resolveAt_append hpre, resolveAt_cons]
      simp only [hch, hs]
    · rw [validate_eq_loop, validateLoop_append hpre 0 _, validateLoop_cons]
      simp only [hs]
  · intro pre c idx parent hp hs hpre hch hfind
    subst hp
    rw [rpep_eq]
    have hg : (pre ++ [c]).getLast? = some c := by
      rw [List.getLast?_concat]
    have hd : (pre ++ [c]).dropLast = pre := by
      rw [List.dropLast_concat]
    rw [hg, hd]
    simp only [hpre, hch, hs, hfind]

/-- Witness for claim C9: a non-UTF-8 component panics all three resolvers on the
fixture index, and a UTF-8 path does not hit that panic. -/
theorem c9_witness :
    bmW.resolve_path_to_block_chain_index_at 256 [Component.normal none] =
      .panicked .unwrapNone ∧
    bmW.validate_dir_path_until 256 [Component.normal none] = .panicked .unwrapNone ∧
    bmW.resolve_path_to_entry_and_parent 512 [Component.normal none] =
      .panicked .unwrapNone ∧
    bmW.resolve_path_to_block_chain_index_at 256 [Component.normal (some "a")] ≠
      .panicked .unwrapNone := by
  refine ⟨?_, ?_, ?_, ?_⟩
  · exact (((c9_utf8_is_the_no_unwrap_panic_precondition bmW 256
      [Component.normal none]).2.1) [] (Component.normal none) [] 256 ⟨[rootBlockW]⟩
      rfl (by decide) (by decide) (by decide)).1
  · exact (((c9_utf8_is_the_no_unwrap_panic_precondition bmW 256
      [Component.normal none]).2.1) [] (Component.normal none) [] 256 ⟨[rootBlockW]⟩
      rfl (by decide) (by decide) (by decide)).2
  · exact ((c9_utf8_is_the_no_unwrap_panic_precondition bmW 512
      [Component.normal none]).2.2) [] (Component.normal none) 512 ⟨[aBlockW]⟩
      rfl (by decide) (by decide) (by decide) (by decide)
  · exact ((c9_utf8_is_the_no_unwrap_panic_precondition bmW 256
      [Component.normal (some "a")]).1 (by decide)).1

/-- Claim C10: the resolvers index `chains` directly and panic (rather than
return an error) when the start key is absent and a component must be
resolved — for the validator once the first component's name converts;
and under the precondition that the start is a key and the
child-identifier closure invariant holds, the map-index panic is
unreachable in all three operations. -/
theorem c10_map_index_panic_characterised
    (bm : BlockManager) (start : Nat) (path : List Component) :
    (cmFind bm.chains start = none → path ≠ [] →
      bm.resolve_path_to_block_chain_index_at start path = .panicked .keyNotFound ∧
      bm.resolve_path_to_entry_and_parent start path = .panicked .keyNotFound ∧
      (∀ c rest name, path = c :: rest → c.asStr = some name →
        bm.validate_dir_path_until start path = .panicked .keyNotFound)) ∧
    (ChildClosed bm → (cmFind bm.chains start).isSome →
      bm.resolve_path_to_block_chain_index_at start path ≠ .panicked .keyNotFound ∧
      bm.validate_dir_path_until start path ≠ .panicked .keyNotFound ∧
      bm.resolve_path_to_entry_and_parent start path ≠ .panicked .keyNotFound) := by
  constructor
  · intro hnone hne
    have hres : bm.resolve_path_to_block_chain_index_at start path = .panicked .keyNotFound := by
      cases path with
      | nil => exact absurd rfl hne
      | cons c rest =>
        rw [resolveAt_cons]
        simp only [hnone]
    refine ⟨hres, ?_, ?_⟩
    · rw [rpep_eq]
      cases hg : path.getLast? with
      | none =>
        rw [List.getLast?_eq_none_iff] at hg
        exact absurd hg hne
      | some c =>
        simp only [hg]
        cases hd : path.dropLast with
        | nil =>
          have h1 : bm.resolve_path_to_block_chain_index_at start [] = .ok start := rfl
          simp only [h1, hnone]
        | cons c0 rest0 =>
          have h1 : bm.resolve_path_to_block_chain_index_at start (c0 :: rest0) =
              .panicked .keyNotFound := by
            rw [resolveAt_cons]
            simp only [hnone]
          simp only [h1]
    · intro c rest name hp hs
      subst hp
      rw [validate_eq_loop, validateLoop_cons]
      simp only [hs, hnone]
  · intro hc hk
    exact ⟨resolveAt_no_key hc hk, validate_ne_panicked (validateLoop_no_key hc hk),
      rpep_no_key hc hk⟩

/-- Witness for claim C10: starting from the absent key 999 every resolver panics
on the fixture index, while from the present root key (whose index
satisfies the closure invariant) the panic is unreachable. -/
theorem c10_witness :
    bmW.resolve_path_to_block_chain_index_at 999 [Component.normal (some "a")] =
      .panicked .keyNotFound ∧
    bmW.resolve_path_to_entry_and_parent 999 [Component.normal (some "a")] =
      .panicked .keyNotFound ∧
    bmW.validate_dir_path_until 999 [Component.normal (some "a")] =
      .panicked .keyNotFound ∧
    bmW.resolve_path_to_block_chain_index_at 256 [Component.normal (some "a")] ≠
      .panicked .keyNotFound := by
  have hbad := (c10_map_index_panic_characterised bmW 999 [Component.normal (some "a")]).1
    (by decide) (by decide)
  have hgood := (c10_map_index_panic_characterised bmW 256 [Component.normal (some "a")]).2
    (by decide) (by decide)
  exact ⟨hbad.1, hbad.2.1,
    hbad.2.2 (Component.normal (some "a")) [] "a" rfl (by decide), hgood.1⟩

theorem cmFind_cons (a : Nat) (b : PackBlockChain) (m : ChainMap) (k : Nat) :
    cmFind ((a, b) :: m) k = if a = k then some b else cmFind m k := by
  unfold cmFind
  rw [List.find?_cons]
  split <;> simp_all

theorem cmFind_insert_isSome {m : ChainMap} {k : Nat} (a : Nat) (b : PackBlockChain)
    (h : (cmFind m k).isSome) : (cmFind (cmInsert m a b) k).isSome := by
  unfold cmInsert
  rw [cmFind_cons]
  split <;> simp_all

theorem newAux_nil (bf : Blowfish) (src : ByteSource) (dec : BlockDecoder)
    (cf fuel : Nat) (m : ChainMap) : newAux bf src dec cf fuel [] m = .ok m := by
  cases fuel <;> rfl

theorem newAux_cons (bf : Blowfish) (src : ByteSource) (dec : BlockDecoder)
    (cf fuel : Nat) (o : Nat) (rest : List Nat) (m : ChainMap) :
    newAux bf src dec cf (fuel + 1) (o :: rest) m =
      (match read_chain_from_file_at bf src dec cf o with
       | .err e => .err e
       | .diverge => .diverge
       | .ok chain =>
         newAux bf src dec cf fuel ((chainChildOffsets chain).reverse ++ rest)
           (cmInsert m o chain)) := rfl

theorem newAux_keys {bf : Blowfish} {src : ByteSource} {dec : BlockDecoder} {cf : Nat} :
    ∀ {fuel : Nat} {wl : List Nat} {m fin : ChainMap},
      newAux bf src dec cf fuel wl m = .ok fin →
      ∀ k, (k ∈ wl ∨ (cmFind m k).isSome) → (cmFind fin k).isSome := by
  intro fuel
  induction fuel with
  | zero =>
    intro wl m fin h k hk
    cases wl with
    | nil =>
      rw [newAux_nil] at h
      cases h
      rcases hk with h1 | h1
      · simp at h1
      · exact h1
    | cons o rest => exact absurd h (by simp [newAux])
  | succ fuel ih =>
    intro wl m fin h k hk
    cases wl with
    | nil =>
      rw [newAux_nil] at h
      cases h
      rcases hk with h1 | h1
      · simp at h1
      · exact h1
    | cons o rest =>
      rw [newAux_cons] at h
      cases hr : read_chain_from_file_at bf src dec cf o with
      | err e => rw [hr] at h; exact absurd h (by simp)
      | diverge => rw [hr] at h; exact absurd h (by simp)
      | ok chain =>
        rw [hr] at h
        refine ih h k ?_
        rcases hk with h1 | h1
        · rcases List.mem_cons.1 h1 with h2 | h2
          · subst h2
            right
            unfold cmInsert
            rw [cmFind_cons]
            simp
          · left
            exact List.mem_append_right _ h2
        · right
          exact cmFind_insert_isSome o chain h1

theorem newAux_stored {bf : Blowfish} {src : ByteSource} {dec : BlockDecoder} {cf : Nat} :
    ∀ {fuel : Nat} {wl : List Nat} {m fin : ChainMap},
      newAux bf src dec cf fuel wl m = .ok fin →
      (∀ pr ∈ m, read_chain_from_file_at bf src dec cf pr.1 = .ok pr.2) →
      ∀ pr ∈ fin, read_chain_from_file_at bf src dec cf pr.1 = .ok pr.2 := by
  intro fuel
  induction fuel with
  | zero =>
    intro wl m fin h hm
    cases wl with
    | nil =>
      rw [newAux_nil] at h
      cases h
      exact hm
    | cons o rest => exact absurd h (by simp [newAux])
  | succ fuel ih =>
    intro wl m fin h hm
    cases wl with
    | nil =>
      rw [newAux_nil] at h
      cases h
      exact hm
    | cons o rest =>
      rw [newAux_cons] at h
      cases hr : read_chain_from_file_at bf src dec cf o with
      | err e => rw [hr] at h; exact absurd h (by simp)
      | diverge => rw [hr] at h; exact absurd h (by simp)
      | ok chain =>
        rw [hr] at h
        refine ih h ?_
        intro pr hpr
        rcases List.mem_cons.1 hpr with h2 | h2
        · subst h2
          exact hr
        · exact hm pr h2

theorem newAux_closed {bf : Blowfish} {src : ByteSource} {dec : BlockDecoder} {cf : Nat} :
    ∀ {fuel : Nat} {wl : List Nat} {m fin : ChainMap},
      newAux bf src dec cf fuel wl m = .ok fin →
      (∀ pr ∈ m, ∀ c ∈ chainChildOffsets pr.2, c ∈ wl ∨ (cmFind m c).isSome) →
      ∀ pr ∈ fin, ∀ c ∈ chainChildOffsets pr.2, (cmFind fin c).isSome := by
  intro fuel
  induction fuel with
  | zero =>
    intro wl m fin h hInv
    cases wl with
    | nil =>
      rw [newAux_nil] at h
      cases h
      intro pr hpr c hc
      rcases hInv pr hpr c hc with h1 | h1
      · simp at h1
      · exact h1
    | cons o rest => exact absurd h (by simp [newAux])
  | succ fuel ih =>
    intro wl m fin h hInv
    cases wl with
    | nil =>
      rw [newAux_nil] at h
      cases h
      intro pr hpr c hc
      rcases hInv pr hpr c hc with h1 | h1
      · simp at h1
      · exact h1
    | cons o rest =>
      rw [newAux_cons] at h
      cases hr : read_chain_from_file_at bf src dec cf o with
      | err e => rw [hr] at h; exact absurd h (by simp)
      | diverge => rw [hr] at h; exact absurd h (by simp)
      | ok chain =>
        rw [hr] at h
        refine ih h ?_
        intro pr hpr c hc
        rcases List.mem_cons.1 hpr with h2 | h2
        · subst h2
          left
          exact List.mem_append_left _ (List.mem_reverse.2 hc)
        · rcases hInv pr h2 c hc with h3 | h3
          · rcases List.mem_cons.1 h3 with h4 | h4
            · subst h4
              right
              unfold cmInsert
              rw [cmFind_cons]
              simp
            · left
              exact List.mem_append_right _ h4
          · right
            exact cmFind_insert_isSome o chain h3

theorem readChainAux_err_kinds {bf : Blowfish} {src : ByteSource} {dec : BlockDecoder} :
    ∀ {f o : Nat} {acc : List PackBlock} {e : PkError},
      readChainAux bf src dec f o acc = .err e → e = .ioFailure ∨ e = .formatError := by
  intro f
  induction f with
  | zero =>
    intro o acc e h
    simp [readChainAux] at h
  | succ f ih =>
    intro o acc e h
    unfold readChainAux at h
    cases hs : src o with
    | none =>
      simp only [hs] at h
      cases h
      left
      rfl
    | some buf =>
      simp only [hs] at h
      cases hd : dec (bf buf) o with
      | none =>
        simp only [hd] at h
        cases h
        right
        rfl
      | some block =>
        simp only [hd] at h
        cases hn : block.nextChain with
        | some nc =>
          simp only [hn] at h
          exact ih h
        | none =>
          simp only [hn] at h
          cases h

theorem newAux_err_kinds {bf : Blowfish} {src : ByteSource} {dec : BlockDecoder} {cf : Nat} :
    ∀ {fuel : Nat} {wl : List Nat} {m : ChainMap} {e : PkError},
      newAux bf src dec cf fuel wl m = .err e → e = .ioFailure ∨ e = .formatError := by
  intro fuel
  induction fuel with
  | zero =>
    intro wl m e h
    cases wl with
    | nil => rw [newAux_nil] at h; cases h
    | cons o rest => exact absurd h (by simp [newAux])
  | succ fuel ih =>
    intro wl m e h
    cases wl with
    | nil => rw [newAux_nil] at h; cases h
    | cons o rest =>
      rw [newAux_cons] at h
      cases hr : read_chain_from_file_at bf src dec cf o with
      | err e2 =>
        rw [hr] at h
        cases h
        exact readChainAux_err_kinds hr
      | diverge => rw [hr] at h; cases h
      | ok chain =>
        rw [hr] at h
        exact ih h

theorem mem_chainChildOffsets {ch : PackBlockChain} {pos : Nat} :
    pos ∈ chainChildOffsets ch ↔
      ∃ name, PackEntry.directory name pos ∈ ch.entriesAll ∧ name ≠ "." ∧ name ≠ ".." := by
  unfold chainChildOffsets
  rw [List.mem_filterMap]
  constructor
  · rintro ⟨e, he, hf⟩
    cases e with
    | empty => simp at hf
    | directory n p =>
      simp only at hf
      by_cases h1 : n = "."
      · simp [h1] at hf
      by_cases h2 : n = ".."
      · simp [h2] at hf
      rw [if_pos ⟨h1, h2⟩] at hf
      injection hf with h3
      subst h3
      exact ⟨n, he, h1, h2⟩
    | file n => simp at hf
  · rintro ⟨name, he, h1, h2⟩
    exact ⟨PackEntry.directory name pos, he, by simp [h1, h2]⟩

/-- Claim C4: if construction succeeds, then for every chain stored in the
returned index and every Directory entry of that chain whose name is
neither "." nor "..", the entry's child chain identifier is itself a
key of the index. -/
theorem c4_index_closed_under_child_identifiers
    {bf : Blowfish} {src : ByteSource} {dec : BlockDecoder} {cf fuel : Nat}
    {bm : BlockManager} (h : BlockManager.new bf src dec cf fuel = .ok bm) :
    ∀ k ch, cmFind bm.chains k = some ch →
      ∀ e ∈ ch.entriesAll, ∀ name pos, e = PackEntry.directory name pos →
        name ≠ "." → name ≠ ".." → (cmFind bm.chains pos).isSome := by
  unfold BlockManager.new at h
  cases hn : newAux bf src dec cf fuel [PK2_ROOT_BLOCK] [] with
  | err e => rw [hn] at h; cases h
  | diverge => rw [hn] at h; cases h
  | ok chains =>
    rw [hn] at h
    cases h
    intro k ch hfind e he name pos hdir h1 h2
    subst hdir
    have hmem := cmFind_mem hfind
    have hclosed := newAux_closed hn (by intro pr hpr; simp at hpr)
    exact hclosed (k, ch) hmem pos (mem_chainChildOffsets.2 ⟨name, he, h1, h2⟩)

/-- Witness for claim C4: constructing the fixture archive succeeds and the child
identifier 512 recorded under the root key is itself a key. -/
theorem c4_witness :
    BlockManager.new bfW srcW decW 1 10 =
      .ok ⟨[(768, ⟨[bBlockW]⟩), (512, ⟨[aBlockW]⟩), (256, ⟨[rootBlockW]⟩)]⟩ ∧
    (cmFind [(768, ⟨[bBlockW]⟩), (512, ⟨[aBlockW]⟩), (256, ⟨[rootBlockW]⟩)] 512).isSome := by
  constructor
  · decide
  · exact @c4_index_closed_under_child_identifiers bfW srcW decW 1 10
      ⟨[(768, ⟨[bBlockW]⟩), (512, ⟨[aBlockW]⟩), (256, ⟨[rootBlockW]⟩)]⟩
      (by decide) 256 ⟨[rootBlockW]⟩
      (by decide) (PackEntry.directory "a" 512) (by decide) "a" 512 rfl
      (by decide) (by decide)

/-- Claim C5: construction is atomic.  On success the root chain is a key of
the index and every offset transitively reachable through the chains
the source yields is stored, bound to exactly the chain read for it; on
failure the error is an I/O or format error and no index of any kind is
produced (the error constructor carries none). -/
theorem c5_construction_is_atomic (bf : Blowfish) (src : ByteSource) (dec : BlockDecoder)
    (cf fuel : Nat) :
    (∀ bm, BlockManager.new bf src dec cf fuel = .ok bm →
      (cmFind bm.chains PK2_ROOT_BLOCK).isSome ∧
      ∀ o, ReachableOffset bf src dec cf o →
        ∃ ch, read_chain_from_file_at bf src dec cf o = .ok ch ∧
          cmFind bm.chains o = some ch) ∧
    (∀ e, BlockManager.new bf src dec cf fuel = .err e →
      e = .ioFailure ∨ e = .formatError) := by
  constructor
  · intro bm h
    unfold BlockManager.new at h
    cases hn : newAux bf src dec cf fuel [PK2_ROOT_BLOCK] [] with
    | err e => rw [hn] at h; cases h
    | diverge => rw [hn] at h; cases h
    | ok chains =>
      rw [hn] at h
      cases h
      have hstored := newAux_stored hn (by intro pr hpr; simp at hpr)
      have hclosed := newAux_closed hn (by intro pr hpr; simp at hpr)
      have hkeys := newAux_keys hn
      have hmemval : ∀ o, (cmFind chains o).isSome →
          ∃ ch, read_chain_from_file_at bf src dec cf o = .ok ch ∧
            cmFind chains o = some ch := by
        intro o ho
        cases hf : cmFind chains o with
        | none => rw [hf] at ho; cases ho
        | some ch =>
          exact ⟨ch, hstored (o, ch) (cmFind_mem hf), rfl⟩
      constructor
      · exact hkeys PK2_ROOT_BLOCK (Or.inl (by simp))
      · intro o hreach
        induction hreach with
        | root => exact hmemval PK2_ROOT_BLOCK (hkeys PK2_ROOT_BLOCK (Or.inl (by simp)))
        | step hro hrc hcm ih =>
          rename_i o2 ch2 c2
          obtain ⟨ch3, hread3, hfind3⟩ := ih
          have : ch3 = ch2 := by
            rw [hrc] at hread3
            cases hread3
            rfl
          subst this
          exact hmemval c2 (hclosed (o2, ch3) (cmFind_mem hfind3) c2 hcm)
  · intro e h
    unfold BlockManager.new at h
    cases hn : newAux bf src dec cf fuel [PK2_ROOT_BLOCK] [] with
    | err e2 =>
      rw [hn] at h
      cases h
      exact newAux_err_kinds hn
    | diverge => rw [hn] at h; cases h
    | ok chains => rw [hn] at h; cases h


/-- Witness for claim C5: on the fixture archive construction succeeds with the
root and the reachable offset 512 present; with a failing byte source
it aborts with an I/O error. -/
theorem c5_witness :
    (cmFind [(768, ⟨[bBlockW]⟩), (512, ⟨[aBlockW]⟩), (256, ⟨[rootBlockW]⟩)]
        PK2_ROOT_BLOCK).isSome ∧
    (∃ ch, read_chain_from_file_at bfW srcW decW 1 512 = .ok ch ∧
      cmFind [(768, ⟨[bBlockW]⟩), (512, ⟨[aBlockW]⟩), (256, ⟨[rootBlockW]⟩)] 512 =
        some ch) ∧
    (PkError.ioFailure = .ioFailure ∨ PkError.ioFailure = .formatError) := by
  have hok := (c5_construction_is_atomic bfW srcW decW 1 10).1
    ⟨[(768, ⟨[bBlockW]⟩), (512, ⟨[aBlockW]⟩), (256, ⟨[rootBlockW]⟩)]⟩ (by decide)
  have hreach : ReachableOffset bfW srcW decW 1 512 :=
    ReachableOffset.step ReachableOffset.root
      (by decide : read_chain_from_file_at bfW srcW decW 1 PK2_ROOT_BLOCK =
        .ok ⟨[rootBlockW]⟩)
      (by decide)
  have herr := (c5_construction_is_atomic bfW srcBadW decW 1 10).2 .ioFailure (by decide)
  exact ⟨hok.1, hok.2 512 hreach, herr⟩

theorem newAux_terminates {bf : Blowfish} {src : ByteSource} {dec : BlockDecoder}
    {cf : Nat} {r : Nat → Nat} {B : Nat}
    (H1 : ∀ o, read_chain_from_file_at bf src dec cf o ≠ .diverge)
    (H2 : ∀ o ch, read_chain_from_file_at bf src dec cf o = .ok ch →
      ∀ c ∈ chainChildOffsets ch, r c < r o)
    (H3 : ∀ o ch, read_chain_from_file_at bf src dec cf o = .ok ch →
      (chainChildOffsets ch).length ≤ B) :
    ∀ (fuel : Nat) (wl : List Nat) (m : ChainMap),
      (wl.map (fun o => (B + 1) ^ r o)).sum ≤ fuel →
      newAux bf src dec cf fuel wl m ≠ .diverge := by
  intro fuel
  induction fuel with
  | zero =>
    intro wl m hsum
    cases wl with
    | nil => rw [newAux_nil]; simp
    | cons o rest =>
      exfalso
      simp only [List.map_cons, List.sum_cons] at hsum
      have hp := Nat.one_le_pow (r o) (B + 1) (by omega)
      omega
  | succ fuel ih =>
    intro wl m hsum
    cases wl with
    | nil => rw [newAux_nil]; simp
    | cons o rest =>
      rw [newAux_cons]
      cases hr : read_chain_from_file_at bf src dec cf o with
      | err e => simp
      | diverge => exact absurd hr (H1 o)
      | ok chain =>
        simp only
        refine ih _ _ ?_
        simp only [List.map_cons, List.sum_cons] at hsum
        rw [List.map_append, List.sum_append, List.map_reverse, List.sum_reverse]
        cases hro : r o with
        | zero =>
          have hnil : chainChildOffsets chain = [] := by
            rw [List.eq_nil_iff_forall_not_mem]
            intro c hc
            have := H2 o chain hr c hc
            omega
          rw [hro] at hsum
          rw [hnil]
          simp only [List.map_nil, List.sum_nil, Nat.zero_add]
          simp at hsum
          omega
        | succ s =>
          have hlen := H3 o chain hr
          have hmapbound :
              ((chainChildOffsets chain).map (fun c => (B + 1) ^ r c)).sum ≤
                (chainChildOffsets chain).length * (B + 1) ^ s := by
            have hstep := List.sum_le_card_nsmul
              ((chainChildOffsets chain).map (fun c => (B + 1) ^ r c)) ((B + 1) ^ s) ?_
            · rw [List.length_map, smul_eq_mul] at hstep
              exact hstep
            · intro x hx
              rw [List.mem_map] at hx
              obtain ⟨c, hc, hcx⟩ := hx
              subst hcx
              have hlt := H2 o chain hr c hc
              rw [hro] at hlt
              exact Nat.pow_le_pow_right (by omega) (by omega)
          have hmul : (chainChildOffsets chain).length * (B + 1) ^ s ≤ B * (B + 1) ^ s :=
            Nat.mul_le_mul_right _ hlen
          rw [hro, pow_succ] at hsum
          have hsplit : (B + 1) ^ s * (B + 1) = B * (B + 1) ^ s + (B + 1) ^ s := by ring
          rw [hsplit] at hsum
          have hp := Nat.one_le_pow s (B + 1) (by omega)
          omega

/-- Claim C8: the worklist only ever receives the children of Directory
entries whose name is neither "." nor ".." (first conjunct: the pushed
offsets are exactly those), and whenever a rank function certifies that
the non-"."/".."-edge graph the source yields is acyclic (children
strictly decrease the rank) with chains finite and at most `B` children
each, some fuel bound makes the traversal loop terminate. -/
theorem c8_dots_excluded_and_traversal_terminates (bf : Blowfish) (src : ByteSource)
    (dec : BlockDecoder) (cf : Nat) :
    (∀ ch pos, pos ∈ chainChildOffsets ch ↔
      ∃ name, PackEntry.directory name pos ∈ ch.entriesAll ∧ name ≠ "." ∧ name ≠ "..") ∧
    (∀ (r : Nat → Nat) (B : Nat),
      (∀ o, read_chain_from_file_at bf src dec cf o ≠ .diverge) →
      (∀ o ch, read_chain_from_file_at bf src dec cf o = .ok ch →
        ∀ c ∈ chainChildOffsets ch, r c < r o) →
      (∀ o ch, read_chain_from_file_at bf src dec cf o = .ok ch →
        (chainChildOffsets ch).length ≤ B) →
      ∃ fuel, BlockManager.new bf src dec cf fuel ≠ .diverge) := by
  constructor
  · intro ch pos
    exact mem_chainChildOffsets
  · intro r B H1 H2 H3
    refine ⟨(B + 1) ^ r PK2_ROOT_BLOCK, ?_⟩
    have hterm := newAux_terminates H1 H2 H3 ((B + 1) ^ r PK2_ROOT_BLOCK)
      [PK2_ROOT_BLOCK] [] (by simp)
    unfold BlockManager.new
    cases hn : newAux bf src dec cf ((B + 1) ^ r PK2_ROOT_BLOCK) [PK2_ROOT_BLOCK] [] with
    | ok chains => simp
    | err e => simp
    | diverge => exact absurd hn hterm

theorem readW_cases (o : Nat) :
    read_chain_from_file_at bfW srcW decW 1 o =
      (if o = 256 then .ok ⟨[rootBlockW]⟩
       else if o = 512 then .ok ⟨[aBlockW]⟩
       else if o = 768 then .ok ⟨[bBlockW]⟩
       else .err .formatError) := by
  by_cases h1 : o = 256
  · subst h1; decide
  rw [if_neg h1]
  by_cases h2 : o = 512
  · subst h2; decide
  rw [if_neg h2]
  by_cases h3 : o = 768
  · subst h3; decide
  rw [if_neg h3]
  unfold read_chain_from_file_at readChainAux
  simp only [srcW, decW, bfW]
  rw [if_neg (by simp [h1]), if_neg (by simp [h2]), if_neg (by simp [h3])]

/-- Witness for claim C8: on the fixture archive, 512 is pushed because of the
Directory entry "a" of the root chain, and with rank 256 ↦ 2, 512 ↦ 1,
768 ↦ 0 and child bound 1 the traversal terminates for some fuel. -/
theorem c8_witness :
    (512 ∈ chainChildOffsets ⟨[rootBlockW]⟩ ↔
      ∃ name, PackEntry.directory name 512 ∈ PackBlockChain.entriesAll ⟨[rootBlockW]⟩ ∧
        name ≠ "." ∧ name ≠ "..") ∧
    (∃ fuel, BlockManager.new bfW srcW decW 1 fuel ≠ .diverge) := by
  constructor
  · exact (c8_dots_excluded_and_traversal_terminates bfW srcW decW 1).1 ⟨[rootBlockW]⟩ 512
  · refine (c8_dots_excluded_and_traversal_terminates bfW srcW decW 1).2 rankW 1 ?_ ?_ ?_
    · intro o
      rw [readW_cases]
      split_ifs <;> simp
    · intro o ch h c hc
      rw [readW_cases] at h
      split_ifs at h with h1 h2 h3
      · cases h
        subst h1
        have hcc : chainChildOffsets ⟨[rootBlockW]⟩ = [512] := by decide
        rw [hcc] at hc
        simp at hc
        subst hc
        decide
      · cases h
        subst h2
        have hcc : chainChildOffsets ⟨[aBlockW]⟩ = [768] := by decide
        rw [hcc] at hc
        simp at hc
        subst hc
        decide
      · cases h
        subst h3
        have hcc : chainChildOffsets ⟨[bBlockW]⟩ = [] := by decide
        rw [hcc] at hc
        simp at hc
    · intro o ch h
      rw [readW_cases] at h
      split_ifs at h with h1 h2 h3
      · cases h; decide
      · cases h; decide
      · cases h; decide
